import Mathlib

/-!
# Verification of the OFS funscript timeline engine

Shallow embedding of the action-timeline core of the OFS repository
(`Funscript.cpp` and the `UndoSystem` declarations), with proofs of the
spec's claims about it.

Conventions used throughout:
* machine integers (`int32_t`, `int16_t`) are modelled as `Int`; the few
  places where the C++ mixes signed and unsigned arithmetic are noted on
  the definition and are faithful for nonnegative in-range values;
* `float` results are modelled over `ℚ`, keeping the exact arithmetic the
  code performs;
* `std::vector` is a `List`, mutation is explicit state passing.
-/

namespace OFS

/-- `FunscriptAction { int32_t at; int16_t pos; }` — a single timeline
action.  The C++ field `at` is a Lean keyword, so it is called `atMs`
here (the spec's "timestamp in integer milliseconds"). -/
structure FunscriptAction where
  atMs : Int
  pos : Int
deriving DecidableEq, Repr, Inhabited

/-- `Funscript::FunscriptData`: the canonical action store and the
selection, both ordered lists of actions. -/
structure FunscriptData where
  Actions : List FunscriptAction := []
  selection : List FunscriptAction := []
deriving DecidableEq, Repr, Inhabited

/-- The parts of `class Funscript` the claims touch: the data, the spline
index validity flag, the index itself (`ScriptSpline.ActionMap`, a
`std::map<int32_t, int>` modelled as a key-sorted association list from
timestamp to array index), and the two deferred change flags. -/
structure Funscript where
  data : FunscriptData := {}
  SplineNeedsUpdate : Bool := true
  ActionMap : List (Int × Nat) := []
  funscriptChanged : Bool := false
  selectionChanged : Bool := false
deriving DecidableEq, Repr, Inhabited

/-- Modelled from the spec: `Funscript::NotifyActionsChanged` is declared in
the header `Funscript.h`, which is not among the provided sources.  Per
spec §4.1 every structural mutation sets the "actions changed" flag and
invalidates the Spline Index. -/
def NotifyActionsChanged (fs : Funscript) (_changed : Bool) : Funscript :=
  { fs with funscriptChanged := true, SplineNeedsUpdate := true }

/-- `Funscript::NotifySelectionChanged`. -/
def NotifySelectionChanged (fs : Funscript) : Funscript :=
  { fs with selectionChanged := true }

/-- Modelled from the spec: `ClearSelection` is declared in the missing
header; spec §4.4 — the selection is an independent ordered subset, and
clearing empties it. -/
def ClearSelection (fs : Funscript) : Funscript :=
  { fs with data := { fs.data with selection := [] } }

/-- Modelled from the spec: `sortSelection` is declared in the missing
header; spec §4.4 keeps the selection "ordered by timestamp", so it sorts
the selection by ascending timestamp (stable). -/
def sortSelection (fs : Funscript) : Funscript :=
  { fs with data := { fs.data with
      selection := fs.data.selection.insertionSort (fun x y => x.atMs ≤ y.atMs) } }

/-- `Funscript::getAction`: with a valid spline index, look the queried
timestamp up in `ActionMap` and return the stored action at that array
index; with a stale index, fall back to `std::find` by full value.
(`&data.Actions[idx]` is modelled with `getElem?`; the index is in bounds
whenever the map is consistent with the store.) -/
def getAction (fs : Funscript) (action : FunscriptAction) : Option FunscriptAction :=
  if fs.SplineNeedsUpdate = false then
    match fs.ActionMap.lookup action.atMs with
    | some idx => fs.data.Actions[idx]?
    | none => none
  else
    fs.data.Actions.find? (fun a => a == action)

/-- The linear interpolation computed by `Funscript::GetPositionAtTime`:
`last_pos + progress * diff` with `progress = (t - a.at)/(next.at - a.at)`
and `diff = next.pos - a.pos` (float arithmetic over ℚ). -/
def interpPos (action next : FunscriptAction) (t : Int) : Rat :=
  (action.pos : Rat) +
    ((t - action.atMs : Int) : Rat) / ((next.atMs - action.atMs : Int) : Rat) *
      ((next.pos - action.pos : Int) : Rat)

/-- The pair-scanning loop of `GetPositionAtTime`: walk consecutive pairs
`(action, next)`; return the interpolation when `action.at < t < next.at`,
the exact position when `action.at == t`; `none` when the loop falls
through (the caller then returns the last action's position). -/
def scanPosition : List FunscriptAction → Int → Option Rat
  | [], _ => none
  | [_], _ => none
  | action :: next :: rest, t =>
    if action.atMs < t ∧ t < next.atMs then some (interpPos action next t)
    else if action.atMs = t then some ((action.pos : Rat))
    else scanPosition (next :: rest) t

/-- `std::map::lower_bound` on the key-sorted association list: the first
entry whose key is ≥ the query. -/
def mapLowerBound : List (Int × Nat) → Int → Option (Int × Nat)
  | [], _ => none
  | e :: rest, t => if t ≤ e.1 then some e else mapLowerBound rest t

/-- The scan start index chosen by `GetPositionAtTime`: `0` when the spline
index is stale, otherwise the lower-bound hit's array index, decremented
when positive (`i = indexIt->second; if (i > 0) --i;`). -/
def splineStartIndex (fs : Funscript) (t : Int) : Nat :=
  if fs.SplineNeedsUpdate then 0
  else
    match mapLowerBound fs.ActionMap t with
    | some e => if 0 < e.2 then e.2 - 1 else e.2
    | none => 0

/-- `Funscript::GetPositionAtTime` (float results over ℚ): 0 when empty,
the single position for one action, otherwise scan pairs from the chosen
start index and fall back to the last action's position. -/
def GetPositionAtTime (fs : Funscript) (t : Int) : Rat :=
  match fs.data.Actions with
  | [] => 0
  | [a] => (a.pos : Rat)
  | a :: b :: rest =>
    match scanPosition ((a :: b :: rest).drop (splineStartIndex fs t)) t with
    | some r => r
    | none => (((a :: b :: rest).getLastD default).pos : Rat)

/-- Modelled from the spec: the Spline Index rebuild is not among the
provided sources; spec §3/§4.2 describe it as the map sending each
action's timestamp to that action's position in `actions`, built in one
pass.  `base` is the array index of the first list element. -/
def buildActionMapFrom (base : Nat) : List FunscriptAction → List (Int × Nat)
  | [] => []
  | a :: rest => (a.atMs, base) :: buildActionMapFrom (base + 1) rest

/-- The consistent `ActionMap` for an action list (see
`buildActionMapFrom`). -/
def buildActionMap (l : List FunscriptAction) : List (Int × Nat) :=
  buildActionMapFrom 0 l

/-- `INT32_MAX`, the initial `smallestError` of `getActionAtTime`. -/
def int32Max : Int := 2147483647

/-- The two's-complement `uint32_t` view of an `int32_t` value, as produced
by C++'s usual arithmetic conversions when an `int32_t` meets a
`uint32_t`: the value modulo `2^32`. -/
def toU32 (x : Int) : Nat := (x % 4294967296).toNat

/-- The scan loop of `Funscript::getActionAtTime`: break once
`action.at > time_ms + max_error_ms/2` (integer halving), accept actions
with `|time_ms - action.at| ≤ max_error_ms`, keep the latest action whose
error is ≤ the smallest error so far, and stop at the first accepted
action that is worse.  `max_error_ms` is `uint32_t`, so in the break
comparison both `time_ms` and `action.at` are converted to `uint32_t` and
the sum wraps modulo `2^32` (`toU32`): for a negative `time_ms` the bound
becomes huge and the break never fires against nonnegative timestamps.
The error acceptance compares `std::abs(time_ms - action.at)` (a
nonnegative `int32_t`, so its unsigned conversion is the identity) with
`max_error_ms`. -/
def gaatLoop (t : Int) (maxErr : Nat) :
    List FunscriptAction → Int → Option FunscriptAction → Option FunscriptAction
  | [], _, best => best
  | action :: rest, smallest, best =>
    if (toU32 t + maxErr / 2) % 4294967296 < toU32 action.atMs then best
    else
      let error : Int := |t - action.atMs|
      if error ≤ (maxErr : Int) then
        if error ≤ smallest then gaatLoop t maxErr rest error (some action)
        else best
      else gaatLoop t maxErr rest smallest best

/-- `Funscript::getActionAtTime` on its linear path (stale spline index:
start index 0), the path taken right after any mutation. -/
def getActionAtTime (actions : List FunscriptAction) (t : Int) (maxErr : Nat) :
    Option FunscriptAction :=
  gaatLoop t maxErr actions int32Max none

/-- The candidate window `getActionAtTime` searches on the spec's domain
(nonnegative in-range times and timestamps, where the unsigned break
comparison agrees with the signed one): the scan breaks at the first
action past `t + maxErr/2` (integer halving), and accepts only errors
within `maxErr` — so an action is a candidate iff its timestamp is at
most `t + maxErr/2` and its error is within `maxErr`. -/
def nearWindow (t : Int) (maxErr : Nat) (a : FunscriptAction) : Prop :=
  a.atMs ≤ t + ((maxErr / 2 : Nat) : Int) ∧ |t - a.atMs| ≤ (maxErr : Int)

instance (t : Int) (maxErr : Nat) (a : FunscriptAction) :
    Decidable (nearWindow t maxErr a) :=
  inferInstanceAs (Decidable (_ ∧ _))

/-- The duplicate check of `Funscript::AddActionSafe`: `it` is the
`std::find_if` position of the first action with a strictly larger
timestamp; the `safety` search runs from one before `it` (clamped to
`begin`) to the end, looking for an equal timestamp. -/
def addSafeDup (newAction : FunscriptAction) (l : List FunscriptAction) : Bool :=
  let it := l.findIdx (fun a => decide (newAction.atMs < a.atMs))
  let start := if 0 < it then it - 1 else 0
  (l.drop start).any (fun a => decide (newAction.atMs = a.atMs))

/-- The insertion of `Funscript::AddActionSafe`: insert before the first
action with a strictly larger timestamp. -/
def addSafeInsert (newAction : FunscriptAction) (l : List FunscriptAction) :
    List FunscriptAction :=
  l.insertIdx (l.findIdx (fun a => decide (newAction.atMs < a.atMs))) newAction

/-- `Funscript::AddActionSafe`: when the safety search finds an action with
the same timestamp, only log a warning (no mutation); otherwise insert and
notify. -/
def AddActionSafe (fs : Funscript) (newAction : FunscriptAction) : Funscript :=
  if addSafeDup newAction fs.data.Actions then fs
  else
    NotifyActionsChanged
      { fs with data := { fs.data with Actions := addSafeInsert newAction fs.data.Actions } }
      true

/-- `Funscript::checkForInvalidatedActions`: `std::remove_if` the selection
entries whose `getAction` lookup fails, then — as the C++ does — erase the
*single* element at the returned iterator (not the whole tail).  After
`remove_if`, the vector holds the kept entries followed by the original
elements from position `kept.length` on; `erase(it)` removes the element
at position `kept.length`. -/
def checkForInvalidatedActions (fs : Funscript) : Funscript :=
  let kept := fs.data.selection.filter (fun selected => (getAction fs selected).isSome)
  if kept.length = fs.data.selection.length then fs
  else
    NotifySelectionChanged
      { fs with data := { fs.data with
          selection := kept ++ fs.data.selection.drop (kept.length + 1) } }

/-- `Funscript::RemoveAction`: erase the first value-equal entry if present
(`std::find` + `erase`), notify, and optionally reconcile the selection. -/
def RemoveAction (fs : Funscript) (action : FunscriptAction)
    (checkInvalidSelection : Bool) : Funscript :=
  if fs.data.Actions.contains action then
    let fs1 := NotifyActionsChanged
      { fs with data := { fs.data with Actions := fs.data.Actions.erase action } } true
    if checkInvalidSelection then checkForInvalidatedActions fs1 else fs1
  else fs

/-- `Funscript::RemoveActions`: remove each listed action without per-step
selection checks, then notify and reconcile the selection once. -/
def RemoveActions (fs : Funscript) (removeList : List FunscriptAction) : Funscript :=
  let fs1 := removeList.foldl (fun s a => RemoveAction s a false) fs
  checkForInvalidatedActions (NotifyActionsChanged fs1 true)

/-- `Funscript::RemoveSelectedActions`: remove everything in the selection,
then clear the selection. -/
def RemoveSelectedActions (fs : Funscript) : Funscript :=
  NotifySelectionChanged (ClearSelection (RemoveActions fs fs.data.selection))

/-- `Funscript::ToggleSelection`: erase the action from the selection when
present, append it when absent; returns the new selected state. -/
def ToggleSelection (fs : Funscript) (action : FunscriptAction) : Funscript × Bool :=
  let isSelected := fs.data.selection.contains action
  let fs1 :=
    if isSelected then
      { fs with data := { fs.data with selection := fs.data.selection.erase action } }
    else
      { fs with data := { fs.data with selection := fs.data.selection ++ [action] } }
  (NotifySelectionChanged fs1, !isSelected)

/-- The loop of `Funscript::SelectTime`: toggle every action with timestamp
in `[from_ms, to_ms]`, breaking at the first action past `to_ms`. -/
def selectTimeLoop (fromMs toMs : Int) : Funscript → List FunscriptAction → Funscript
  | fs, [] => fs
  | fs, action :: rest =>
    if fromMs ≤ action.atMs ∧ action.atMs ≤ toMs then
      selectTimeLoop fromMs toMs (ToggleSelection fs action).1 rest
    else if toMs < action.atMs then fs
    else selectTimeLoop fromMs toMs fs rest

/-- `Funscript::SelectTime`: optionally clear, toggle the in-range actions,
and re-sort the selection when not clearing. -/
def SelectTime (fs : Funscript) (fromMs toMs : Int) (clear : Bool) : Funscript :=
  let fs1 := if clear then ClearSelection fs else fs
  let fs2 := selectTimeLoop fromMs toMs fs1 fs1.data.Actions
  let fs3 := if clear then fs2 else sortSelection fs2
  NotifySelectionChanged fs3

/-- Modelled from the spec: `AddAction` is declared in the missing header;
per spec §4.1/§4.5 the store's insert is the duplicate-rejecting sorted
insert, i.e. it forwards to `AddActionSafe`. -/
def AddAction (fs : Funscript) (action : FunscriptAction) : Funscript :=
  AddActionSafe fs action

/-- `std::round` (ties away from zero) over ℚ, returning ℤ. -/
def roundHalfAway (x : Rat) : Int :=
  if 0 ≤ x then ⌊x + 1 / 2⌋ else -⌊-x + 1 / 2⌋

/-- `Funscript::EqualizeSelection`: with at least three selected actions,
sort the selection, compute `stepMs = (last.at - first.at)/(count - 1)` in
float (ℚ here), remove the selected actions from the store, rewrite every
interior copy's timestamp to `first.at + round(i * stepMs)`, re-add all
copies, and make the copies the new selection. -/
def EqualizeSelection (fs : Funscript) : Funscript :=
  if fs.data.selection.length < 3 then fs
  else
    let fsS := sortSelection fs
    let sel := fsS.data.selection
    let first := sel.headD default
    let last := sel.getLastD default
    let stepMs : Rat := ((last.atMs - first.atMs : Int) : Rat) / ((sel.length - 1 : Nat) : Rat)
    let fs1 := RemoveSelectedActions fsS
    let rewritten := sel.enum.map (fun p =>
      if 1 ≤ p.1 ∧ p.1 < sel.length - 1 then
        { p.2 with atMs := first.atMs + roundHalfAway ((p.1 : Rat) * stepMs) }
      else p.2)
    let fs2 := rewritten.foldl (fun s a => AddAction s a) fs1
    { fs2 with data := { fs2.data with selection := rewritten } }

/-- The claim's equalize formula: keep the first and last selected
timestamps, move every interior index `i` (counting from 0) to
`first.at + round(i * (last.at - first.at)/(count - 1))` (ties away from
zero, as `std::round`); positions are untouched. -/
def equalizedTimestamps (sel : List FunscriptAction) : List FunscriptAction :=
  sel.enum.map (fun p : Nat × FunscriptAction =>
    if 1 ≤ p.1 ∧ p.1 < sel.length - 1 then
      { p.2 with atMs := (sel.headD default).atMs +
          roundHalfAway ((p.1 : Rat) *
            (((sel.getLastD default).atMs - (sel.headD default).atMs : Int) : Rat) /
              ((sel.length - 1 : Nat) : Rat)) }
    else p.2)

/-- Concrete state for the spec's equalize example: four actions, all
selected, at timestamps 0, 100, 300, 1000. -/
def exampleEqualizeFs : Funscript :=
  { data := { Actions := [⟨0, 10⟩, ⟨100, 20⟩, ⟨300, 30⟩, ⟨1000, 40⟩],
              selection := [⟨0, 10⟩, ⟨100, 20⟩, ⟨300, 30⟩, ⟨1000, 40⟩] } }

/-- Concrete state where an equalized interior timestamp collides with an
unselected store action: selection timestamps `[0, 100, 1000]` equalize
the interior to `500`, where the unselected `(500, 77)` already sits. -/
def exampleCollideFs : Funscript :=
  { data := { Actions := [⟨0, 10⟩, ⟨100, 20⟩, ⟨500, 77⟩, ⟨1000, 40⟩],
              selection := [⟨0, 10⟩, ⟨100, 20⟩, ⟨1000, 40⟩] } }

/-- `StateType`, the edit-kind enumeration tag (`ADD_EDIT_ACTIONS = 0` …
`RANGE_EXTEND = 18`), modelled by its integer tag. -/
abbrev StateType := Nat

/-- `ScriptState`: an undo snapshot — the edit-kind tag and a deep copy of
the timeline data. -/
structure ScriptState where
  type : StateType
  data : FunscriptData
deriving DecidableEq, Repr, Inhabited

/-- The undo/redo stacks of `class UndoSystem` (vectors used as stacks:
the top is the back). -/
structure UndoSystem where
  UndoStack : List ScriptState := []
  RedoStack : List ScriptState := []
deriving DecidableEq, Repr, Inhabited

/-- `UndoSystem::MatchUndoTop`:
`!UndoEmpty() && UndoStack.back().type == type`. -/
def MatchUndoTop (u : UndoSystem) (t : StateType) : Bool :=
  !u.UndoStack.isEmpty && ((u.UndoStack.getLastD default).type == t)

/-- A single timeline mutation for the sort-invariant claim: an
`AddActionSafe` insert or a `RemoveAction` remove. -/
inductive TimelineOp where
  | add (a : FunscriptAction)
  | remove (a : FunscriptAction)
deriving DecidableEq, Repr

/-- Apply one `TimelineOp` to the state. -/
def applyOp (fs : Funscript) : TimelineOp → Funscript
  | .add a => AddActionSafe fs a
  | .remove a => RemoveAction fs a true

/-- The store invariant: actions strictly increasing by timestamp (hence no
duplicate timestamps). -/
def ActionsSorted (l : List FunscriptAction) : Prop :=
  l.Pairwise (fun x y => x.atMs < y.atMs)

instance : DecidablePred ActionsSorted := fun l =>
  inferInstanceAs (Decidable (l.Pairwise _))

instance : IsTotal FunscriptAction (fun x y => x.atMs ≤ y.atMs) :=
  ⟨fun a b => le_total a.atMs b.atMs⟩

instance : IsTrans FunscriptAction (fun x y => x.atMs ≤ y.atMs) :=
  ⟨fun _ _ _ h1 h2 => le_trans h1 h2⟩

/-- Proof-side reformulation of `AddActionSafe`'s effect on a *sorted*
store: a recursive ordered insert that rejects duplicate timestamps.
`addSafe_list_eq` proves it coincides with the `find_if`-based code. -/
def insSafe (na : FunscriptAction) : List FunscriptAction → List FunscriptAction
  | [] => [na]
  | a :: rest =>
    if na.atMs = a.atMs then a :: rest
    else if na.atMs < a.atMs then na :: a :: rest
    else a :: insSafe na rest

/-- Proof-side abbreviation for the linear (stale-index) path of
`GetPositionAtTime` on a non-empty store: scan all consecutive pairs and
fall back to the last action's position. -/
def posLin (l : List FunscriptAction) (t : Int) : Rat :=
  match scanPosition l t with
  | some r => r
  | none => ((l.getLastD default).pos : Rat)

/-! ## Lemmas about `AddActionSafe` -/

theorem addSafeDup_cons_lt {na a : FunscriptAction} (rest : List FunscriptAction)
    (h : a.atMs < na.atMs) :
    addSafeDup na (a :: rest) = addSafeDup na rest := by
  have hp : decide (na.atMs < a.atMs) = false := by simp; omega
  have hne : decide (na.atMs = a.atMs) = false := by simp; omega
  unfold addSafeDup
  simp only [List.findIdx_cons, hp, cond_false]
  rcases Nat.eq_zero_or_pos (rest.findIdx (fun x => decide (na.atMs < x.atMs))) with h0 | hpos
  · simp [h0, hne]
  · have h1 : 0 < rest.findIdx (fun x => decide (na.atMs < x.atMs)) + 1 := by omega
    simp only [if_pos h1, if_pos hpos, Nat.add_sub_cancel]
    obtain ⟨k, hk⟩ : ∃ k, rest.findIdx (fun x => decide (na.atMs < x.atMs)) = k + 1 :=
      ⟨_, (Nat.succ_pred_eq_of_pos hpos).symm⟩
    simp [hk, List.drop_succ_cons]

theorem addSafeInsert_cons_lt {na a : FunscriptAction} (rest : List FunscriptAction)
    (h : a.atMs < na.atMs) :
    addSafeInsert na (a :: rest) = a :: addSafeInsert na rest := by
  have hp : decide (na.atMs < a.atMs) = false := by simp; omega
  unfold addSafeInsert
  simp [List.findIdx_cons, hp]

theorem addSafe_list_eq (na : FunscriptAction) (l : List FunscriptAction)
    (h : ActionsSorted l) :
    (if addSafeDup na l then l else addSafeInsert na l) = insSafe na l := by
  induction l with
  | nil => simp [addSafeDup, addSafeInsert, insSafe]
  | cons a rest ih =>
    have hrest : ActionsSorted rest := (List.pairwise_cons.1 h).2
    have hall : ∀ x ∈ rest, a.atMs < x.atMs := (List.pairwise_cons.1 h).1
    rcases lt_trichotomy na.atMs a.atMs with hlt | heq | hgt
    · -- insert at the front; the safety search finds nothing
      have hdup : addSafeDup na (a :: rest) = false := by
        have hp : decide (na.atMs < a.atMs) = true := by simpa using hlt
        unfold addSafeDup
        simp only [List.findIdx_cons, hp, cond_true, Nat.lt_irrefl, if_neg (by omega : ¬ 0 < 0),
          List.drop_zero]
        simp only [List.any_eq_false, decide_eq_true_eq]
        intro x hx
        rcases List.mem_cons.1 hx with rfl | hx
        · omega
        · have := hall x hx; omega
      have hins : addSafeInsert na (a :: rest) = na :: a :: rest := by
        have hp : decide (na.atMs < a.atMs) = true := by simpa using hlt
        unfold addSafeInsert
        simp [List.findIdx_cons, hp]
      rw [if_neg (by simp [hdup]), hins]
      unfold insSafe
      rw [if_neg (by omega : ¬ na.atMs = a.atMs), if_pos hlt]
    · -- duplicate timestamp: the safety search, starting just before the
      -- upper-bound position, sees `a`
      have hdup : addSafeDup na (a :: rest) = true := by
        have hp : decide (na.atMs < a.atMs) = false := by simp; omega
        have hj : rest.findIdx (fun x => decide (na.atMs < x.atMs)) = 0 := by
          cases rest with
          | nil => simp
          | cons b rest2 =>
            have hb : a.atMs < b.atMs := hall b (by simp)
            have : decide (na.atMs < b.atMs) = true := by simp; omega
            simp [List.findIdx_cons, this]
        unfold addSafeDup
        simp only [List.findIdx_cons, hp, cond_false, hj]
        simp [heq]
      simp [hdup, insSafe, heq]
    · -- strictly larger timestamp: recurse past the head
      have hne : ¬ na.atMs = a.atMs := by omega
      have hnlt : ¬ na.atMs < a.atMs := by omega
      rw [addSafeDup_cons_lt rest hgt]
      by_cases hd : addSafeDup na rest = true
      · have hrr : insSafe na rest = rest := by
          have h2 := ih hrest
          rw [if_pos hd] at h2
          exact h2.symm
        rw [if_pos hd]
        unfold insSafe
        rw [if_neg hne, if_neg hnlt, hrr]
      · have hins2 : addSafeInsert na rest = insSafe na rest := by
          have h2 := ih hrest
          rwa [if_neg hd] at h2
        rw [if_neg hd, addSafeInsert_cons_lt rest hgt]
        unfold insSafe
        rw [if_neg hne, if_neg hnlt, hins2]

theorem insSafe_mem_subset {na x : FunscriptAction} {l : List FunscriptAction}
    (h : x ∈ insSafe na l) : x = na ∨ x ∈ l := by
  induction l with
  | nil => simpa [insSafe] using h
  | cons a rest ih =>
    unfold insSafe at h
    split at h
    · right; exact h
    · split at h
      · rcases List.mem_cons.1 h with rfl | h2
        · exact Or.inl rfl
        · exact Or.inr h2
      · rcases List.mem_cons.1 h with rfl | h2
        · exact Or.inr (by simp)
        · rcases ih h2 with h3 | h3
          · exact Or.inl h3
          · exact Or.inr (by simp [h3])

theorem insSafe_sorted {na : FunscriptAction} {l : List FunscriptAction}
    (h : ActionsSorted l) : ActionsSorted (insSafe na l) := by
  induction l with
  | nil => simp [insSafe, ActionsSorted]
  | cons a rest ih =>
    have hrest : ActionsSorted rest := (List.pairwise_cons.1 h).2
    have hall : ∀ x ∈ rest, a.atMs < x.atMs := (List.pairwise_cons.1 h).1
    unfold insSafe
    split
    · exact h
    · split
      · refine List.pairwise_cons.2 ⟨?_, h⟩
        intro x hx
        rcases List.mem_cons.1 hx with rfl | hx
        · omega
        · have := hall x hx; omega
      · refine List.pairwise_cons.2 ⟨?_, ih hrest⟩
        intro x hx
        rcases insSafe_mem_subset hx with rfl | hx
        · omega
        · exact hall x hx

theorem insSafe_of_dup {na : FunscriptAction} {l : List FunscriptAction}
    (h : ActionsSorted l) (hd : ∃ b ∈ l, b.atMs = na.atMs) : insSafe na l = l := by
  induction l with
  | nil => simp at hd
  | cons a rest ih =>
    have hrest : ActionsSorted rest := (List.pairwise_cons.1 h).2
    have hall : ∀ x ∈ rest, a.atMs < x.atMs := (List.pairwise_cons.1 h).1
    obtain ⟨b, hb, hbat⟩ := hd
    rcases List.mem_cons.1 hb with rfl | hb
    · simp [insSafe, hbat.symm]
    · have hba : a.atMs < b.atMs := hall b hb
      unfold insSafe
      rw [if_neg (by omega), if_neg (by omega)]
      rw [ih hrest ⟨b, hb, hbat⟩]

theorem insSafe_perm {na : FunscriptAction} {l : List FunscriptAction}
    (h : ∀ b ∈ l, b.atMs ≠ na.atMs) : List.Perm (insSafe na l) (na :: l) := by
  induction l with
  | nil => simp [insSafe]
  | cons a rest ih =>
    have hne : ¬ na.atMs = a.atMs := fun e => h a (by simp) e.symm
    unfold insSafe
    rw [if_neg hne]
    split
    · exact List.Perm.refl _
    · exact ((ih (fun b hb => h b (by simp [hb]))).cons a).trans (List.Perm.swap _ _ _)

theorem checkForInvalidatedActions_Actions (fs : Funscript) :
    (checkForInvalidatedActions fs).data.Actions = fs.data.Actions := by
  simp only [checkForInvalidatedActions]
  split <;> rfl

theorem AddActionSafe_Actions (fs : Funscript) (na : FunscriptAction)
    (h : ActionsSorted fs.data.Actions) :
    (AddActionSafe fs na).data.Actions = insSafe na fs.data.Actions := by
  have := addSafe_list_eq na fs.data.Actions h
  unfold AddActionSafe
  by_cases hd : addSafeDup na fs.data.Actions
  · rw [if_pos hd] at this ⊢; exact this
  · rw [if_neg hd] at this ⊢; simpa [NotifyActionsChanged] using this

theorem RemoveAction_Actions (fs : Funscript) (a : FunscriptAction) (c : Bool) :
    (RemoveAction fs a c).data.Actions = fs.data.Actions.erase a := by
  unfold RemoveAction
  by_cases hm : fs.data.Actions.contains a
  · rw [if_pos hm]
    cases c
    · simp [NotifyActionsChanged]
    · simp [checkForInvalidatedActions_Actions, NotifyActionsChanged]
  · rw [if_neg hm]
    rw [List.erase_of_not_mem (by simpa using hm)]

theorem applyOp_sorted (fs : Funscript) (op : TimelineOp)
    (h : ActionsSorted fs.data.Actions) : ActionsSorted ((applyOp fs op).data.Actions) := by
  cases op with
  | add a =>
    rw [applyOp, AddActionSafe_Actions fs a h]
    exact insSafe_sorted h
  | remove a =>
    rw [applyOp, RemoveAction_Actions]
    exact h.sublist (fs.data.Actions.erase_sublist a)

theorem addSafeDup_true_of_dup (fs : Funscript) (a : FunscriptAction)
    (h : ActionsSorted fs.data.Actions) (hd : ∃ b ∈ fs.data.Actions, b.atMs = a.atMs) :
    addSafeDup a fs.data.Actions = true := by
  by_contra hfalse
  have heq := addSafe_list_eq a fs.data.Actions h
  rw [if_neg hfalse] at heq
  rw [insSafe_of_dup h hd] at heq
  have hlen : (addSafeInsert a fs.data.Actions).length = fs.data.Actions.length + 1 := by
    unfold addSafeInsert
    exact List.length_insertIdx _ _ (List.findIdx_le_length _)
  rw [heq] at hlen
  omega

theorem AddActionSafe_of_dup (fs : Funscript) (a : FunscriptAction)
    (h : ActionsSorted fs.data.Actions) (hd : ∃ b ∈ fs.data.Actions, b.atMs = a.atMs) :
    AddActionSafe fs a = fs := by
  unfold AddActionSafe
  rw [if_pos (addSafeDup_true_of_dup fs a h hd)]

theorem AddActionSafe_sorted (fs : Funscript) (a : FunscriptAction)
    (h : ActionsSorted fs.data.Actions) :
    ActionsSorted ((AddActionSafe fs a).data.Actions) := by
  rw [AddActionSafe_Actions fs a h]
  exact insSafe_sorted h

theorem insSafe_exists_at (a : FunscriptAction) (l : List FunscriptAction)
    (h : ActionsSorted l) : ∃ b ∈ insSafe a l, b.atMs = a.atMs := by
  by_cases hd : ∃ b ∈ l, b.atMs = a.atMs
  · rw [insSafe_of_dup h hd]; exact hd
  · push_neg at hd
    exact ⟨a, (insSafe_perm hd).mem_iff.2 (by simp), rfl⟩

/-- C1: starting from a timeline whose actions are strictly increasing by
timestamp, every sequence of `AddActionSafe` inserts and `RemoveAction`
removes leaves the actions sequence strictly increasing by timestamp (and
hence free of duplicate timestamps) after every operation. -/
theorem C1_sort_invariant (ops : List TimelineOp) (fs : Funscript)
    (h : ActionsSorted fs.data.Actions) :
    ActionsSorted ((ops.foldl applyOp fs).data.Actions) := by
  induction ops generalizing fs with
  | nil => exact h
  | cons op rest ih => exact ih _ (applyOp_sorted fs op h)

theorem C1_sort_invariant_witness :
    ActionsSorted [FunscriptAction.mk 0 0, FunscriptAction.mk 100 100] ∧
    ActionsSorted
      (([TimelineOp.add ⟨50, 10⟩, TimelineOp.add ⟨20, 90⟩, TimelineOp.remove ⟨50, 10⟩,
          TimelineOp.add ⟨70, 30⟩].foldl applyOp
        { data := { Actions := [⟨0, 0⟩, ⟨100, 100⟩] } }).data.Actions) :=
  ⟨by decide, C1_sort_invariant _ _ (by decide)⟩

/-- C5: `AddActionSafe a` is rejected without any mutation whenever an
action with timestamp `a.at` already exists, and otherwise inserts `a`
preserving ascending timestamp order (a sorted permutation of `a` consed
onto the old store); calling it twice with the same timestamp leaves the
store of the first call unchanged and exactly one action with that
timestamp. -/
theorem C5_duplicate_rejection (fs : Funscript) (a : FunscriptAction)
    (h : ActionsSorted fs.data.Actions) :
    ((∃ b ∈ fs.data.Actions, b.atMs = a.atMs) → AddActionSafe fs a = fs)
    ∧ ((∀ b ∈ fs.data.Actions, b.atMs ≠ a.atMs) →
        ActionsSorted ((AddActionSafe fs a).data.Actions)
        ∧ List.Perm ((AddActionSafe fs a).data.Actions) (a :: fs.data.Actions))
    ∧ (∀ a2 : FunscriptAction, a2.atMs = a.atMs →
        AddActionSafe (AddActionSafe fs a) a2 = AddActionSafe fs a
        ∧ ((∀ b ∈ fs.data.Actions, b.atMs ≠ a.atMs) →
            ((AddActionSafe (AddActionSafe fs a) a2).data.Actions.countP
              (fun b => b.atMs == a.atMs)) = 1)) := by
  refine ⟨fun hd => AddActionSafe_of_dup fs a h hd, fun hnd => ?_, fun a2 ha2 => ?_⟩
  · exact ⟨AddActionSafe_sorted fs a h, by
      rw [AddActionSafe_Actions fs a h]; exact insSafe_perm hnd⟩
  · have hsorted1 : ActionsSorted ((AddActionSafe fs a).data.Actions) :=
      AddActionSafe_sorted fs a h
    have hex : ∃ b ∈ (AddActionSafe fs a).data.Actions, b.atMs = a2.atMs := by
      rw [AddActionSafe_Actions fs a h, ha2]
      exact insSafe_exists_at a fs.data.Actions h
    have hsecond : AddActionSafe (AddActionSafe fs a) a2 = AddActionSafe fs a :=
      AddActionSafe_of_dup _ a2 hsorted1 hex
    refine ⟨hsecond, fun hnd => ?_⟩
    rw [hsecond, AddActionSafe_Actions fs a h]
    rw [(insSafe_perm hnd).countP_eq]
    rw [List.countP_cons_of_pos _ _ (by simp)]
    rw [List.countP_eq_zero.2 (fun b hb => by simpa using hnd b hb)]

theorem C5_duplicate_rejection_witness :
    ActionsSorted [FunscriptAction.mk 10 5, FunscriptAction.mk 30 7] ∧
    ((AddActionSafe (AddActionSafe { data := { Actions := [⟨10, 5⟩, ⟨30, 7⟩] } } ⟨20, 60⟩)
        ⟨20, 99⟩).data.Actions.countP (fun b => b.atMs == (20 : Int))) = 1 :=
  ⟨by decide,
    ((C5_duplicate_rejection { data := { Actions := [⟨10, 5⟩, ⟨30, 7⟩] } } ⟨20, 60⟩
        (by decide)).2.2 ⟨20, 99⟩ rfl).2 (by decide)⟩

/-- C9: `MatchUndoTop k` is true exactly when the undo stack is non-empty
and the kind tag of its top (back) entry equals `k`. -/
theorem C9_matchUndoTop (u : UndoSystem) (k : StateType) :
    MatchUndoTop u k = true ↔
      ∃ s : ScriptState, u.UndoStack.getLast? = some s ∧ s.type = k := by
  unfold MatchUndoTop
  rcases hlast : u.UndoStack.getLast? with _ | s
  · have hnil : u.UndoStack = [] := List.getLast?_eq_none_iff.1 hlast
    simp [hnil]
  · have hne : u.UndoStack ≠ [] := by
      intro hnil; rw [hnil] at hlast; simp at hlast
    have hD : u.UndoStack.getLastD default = s := by
      rw [List.getLastD_eq_getLast?, hlast]; rfl
    simp only [hD, Bool.and_eq_true, Bool.not_eq_true', List.isEmpty_eq_false_iff_exists_mem,
      beq_iff_eq]
    constructor
    · rintro ⟨-, hk⟩; exact ⟨s, rfl, hk⟩
    · rintro ⟨s2, hs2, hk⟩
      obtain rfl : s = s2 := by injection hs2
      refine ⟨?_, hk⟩
      cases hu : u.UndoStack with
      | nil => exact absurd hu hne
      | cons x xs => exact ⟨x, by simp [hu]⟩

/-! ## Lemmas about `GetPositionAtTime` -/

theorem GetPositionAtTime_stale (fs : Funscript) (t : Int)
    (hs : fs.SplineNeedsUpdate = true) (hne : fs.data.Actions ≠ []) :
    GetPositionAtTime fs t = posLin fs.data.Actions t := by
  unfold GetPositionAtTime posLin
  have hstart : splineStartIndex fs t = 0 := by simp [splineStartIndex, hs]
  rcases hacts : fs.data.Actions with _ | ⟨a, _ | ⟨b, rest⟩⟩
  · exact absurd hacts hne
  · simp [scanPosition]
  · rw [hstart]
    rfl

theorem sorted_head_le {b : FunscriptAction} {l : List FunscriptAction}
    (h : ActionsSorted (b :: l)) :
    ∀ (j : Nat) (hj : j < (b :: l).length), b.atMs ≤ (((b :: l).get ⟨j, hj⟩)).atMs := by
  intro j hj
  cases j with
  | zero => simp
  | succ k =>
    have hk : k < l.length := by simpa using hj
    have hmem : l.get ⟨k, hk⟩ ∈ l := l.get_mem k hk
    have := (List.pairwise_cons.1 h).1 _ hmem
    simpa using le_of_lt this

theorem scan_cons_skip {a b : FunscriptAction} {t : Int} (rest : List FunscriptAction)
    (hb : b.atMs ≤ t) (hab : a.atMs < b.atMs) :
    scanPosition (a :: b :: rest) t = scanPosition (b :: rest) t := by
  conv_lhs => rw [scanPosition]
  rw [if_neg (by omega), if_neg (by omega)]

theorem posLin_cons_skip {a b : FunscriptAction} {t : Int} (rest : List FunscriptAction)
    (hb : b.atMs ≤ t) (hab : a.atMs < b.atMs) :
    posLin (a :: b :: rest) t = posLin (b :: rest) t := by
  unfold posLin
  rw [scan_cons_skip rest hb hab]
  rfl

theorem posLin_mem {t : Int} :
    ∀ (l : List FunscriptAction), ActionsSorted l →
      ∀ x ∈ l, x.atMs = t → posLin l t = (x.pos : Rat)
  | [], _, x, hx, _ => absurd hx (by simp)
  | a :: rest, h, x, hx, hxt => by
    have hall : ∀ y ∈ rest, a.atMs < y.atMs := (List.pairwise_cons.1 h).1
    have hrest : ActionsSorted rest := (List.pairwise_cons.1 h).2
    rcases List.mem_cons.1 hx with rfl | hx
    · cases rest with
      | nil => simp [posLin, scanPosition, hxt]
      | cons b rest2 =>
        have hb : x.atMs < b.atMs := hall b (by simp)
        unfold posLin scanPosition
        rw [if_neg (by omega), if_pos hxt]
    · cases rest with
      | nil => simp at hx
      | cons b rest2 =>
        have hbx : b.atMs ≤ x.atMs := by
          rcases List.mem_cons.1 hx with rfl | hx2
          · omega
          · exact le_of_lt ((List.pairwise_cons.1 hrest).1 x hx2)
        rw [posLin_cons_skip rest2 (by omega) (hall b (by simp))]
        exact posLin_mem (b :: rest2) hrest x hx hxt

theorem posLin_bracket {t : Int} :
    ∀ (i : Nat) (l : List FunscriptAction), ActionsSorted l →
      ∀ (hi : i + 1 < l.length),
        (l.get ⟨i, by omega⟩).atMs < t → t < (l.get ⟨i + 1, hi⟩).atMs →
        posLin l t = interpPos (l.get ⟨i, by omega⟩) (l.get ⟨i + 1, hi⟩) t
  | 0, [], _, hi, _, _ => by simp at hi
  | 0, [_], _, hi, _, _ => by simp at hi
  | 0, a :: b :: rest, _, _, h1, h2 => by
    have h1a : a.atMs < t := by simpa using h1
    have h2b : t < b.atMs := by simpa using h2
    unfold posLin
    conv_lhs => rw [scanPosition]
    rw [if_pos ⟨h1a, h2b⟩]
    rfl
  | (j + 1), [], _, hi, _, _ => by simp at hi
  | (j + 1), a :: rest, h, hi, h1, h2 => by
    have hall : ∀ y ∈ rest, a.atMs < y.atMs := (List.pairwise_cons.1 h).1
    have hrest : ActionsSorted rest := (List.pairwise_cons.1 h).2
    have hlen : j + 1 < rest.length := by simpa using hi
    cases rest with
    | nil => simp at hlen
    | cons b rest2 =>
      have hj : (((b :: rest2).get ⟨j, by omega⟩)).atMs < t := by
        simpa using h1
      have hb : b.atMs ≤ t := by
        have := sorted_head_le hrest j (by omega)
        omega
      rw [posLin_cons_skip rest2 hb (hall b (by simp))]
      exact posLin_bracket j (b :: rest2) hrest hlen (by simpa using h1) (by simpa using h2)

theorem scanPosition_none_of_above {t : Int} :
    ∀ (l : List FunscriptAction), (∀ a ∈ l, t < a.atMs) → scanPosition l t = none
  | [], _ => rfl
  | [_], _ => rfl
  | a :: b :: rest, h => by
    unfold scanPosition
    have ha : t < a.atMs := h a (by simp)
    rw [if_neg (by omega), if_neg (by omega)]
    exact scanPosition_none_of_above (b :: rest) (fun x hx => h x (by simp [hx]))

theorem posLin_beyond {t : Int} :
    ∀ (l : List FunscriptAction), ActionsSorted l → l ≠ [] →
      (∀ a ∈ l, a.atMs < t) → posLin l t = (((l.getLastD default)).pos : Rat)
  | [], _, hne, _ => absurd rfl hne
  | [a], _, _, _ => by simp [posLin, scanPosition]
  | a :: b :: rest, h, _, hall => by
    have hab : a.atMs < b.atMs := (List.pairwise_cons.1 h).1 b (by simp)
    rw [posLin_cons_skip rest (le_of_lt (hall b (by simp))) hab]
    rw [posLin_beyond (b :: rest) (List.pairwise_cons.1 h).2 (by simp)
      (fun x hx => hall x (by simp [hx]))]
    rfl

theorem mapLowerBound_buildFrom {t : Int} :
    ∀ (l : List FunscriptAction) (base : Nat) (e : Int × Nat),
      mapLowerBound (buildActionMapFrom base l) t = some e →
      base ≤ e.2 ∧ e.2 - base < l.length ∧
        (∀ m, m < e.2 - base → ∀ (hm : m < l.length), (l.get ⟨m, hm⟩).atMs < t)
  | [], base, e, h => by simp [buildActionMapFrom, mapLowerBound] at h
  | a :: rest, base, e, h => by
    rw [buildActionMapFrom] at h
    unfold mapLowerBound at h
    split at h
    · cases h
      refine ⟨Nat.le_refl _, by simp, ?_⟩
      intro m hm
      omega
    · obtain ⟨h1, h2, h3⟩ := mapLowerBound_buildFrom rest (base + 1) e h
      refine ⟨by omega, by simp; omega, ?_⟩
      intro m hm hml
      cases m with
      | zero =>
        simp only [List.get]
        omega
      | succ k =>
        have := h3 k (by omega) (by simpa using hml)
        simpa using this

theorem scanPosition_drop {t : Int} :
    ∀ (i : Nat) (l : List FunscriptAction), ActionsSorted l →
      i < l.length → (∀ (hi : i < l.length), (l.get ⟨i, hi⟩).atMs < t) →
      scanPosition (l.drop i) t = scanPosition l t
  | 0, l, _, _, _ => by rw [List.drop_zero]
  | (k + 1), [], _, hlen, _ => by simp at hlen
  | (k + 1), a :: rest, h, hlen, hat => by
    have hrest : ActionsSorted rest := (List.pairwise_cons.1 h).2
    have hall : ∀ y ∈ rest, a.atMs < y.atMs := (List.pairwise_cons.1 h).1
    have hklen : k < rest.length := by simpa using hlen
    have hkat : ∀ (hi : k < rest.length), (rest.get ⟨k, hi⟩).atMs < t := by
      intro hi
      have := hat (by simpa using hlen)
      simpa using this
    rw [List.drop_succ_cons]
    rw [scanPosition_drop k rest hrest hklen hkat]
    cases rest with
    | nil => simp at hklen
    | cons b rest2 =>
      have hb : b.atMs ≤ t := by
        have h1 := sorted_head_le hrest k hklen
        have h2 := hkat hklen
        omega
      exact (scan_cons_skip rest2 hb (hall b (by simp))).symm

/-- C3: `GetPositionAtTime` returns 0 on an empty timeline, the single
action's position on a one-action timeline, the matching action's position
when `t` hits a timestamp exactly, the linear interpolation
`a.pos + (t - a.at)/(b.at - a.at) * (b.pos - a.pos)` on a bracketing pair,
and the last action's position beyond the last action (stale-index path;
C4 shows the indexed path agrees). -/
theorem C3_positionAtTime (fs : Funscript) (t : Int)
    (hs : fs.SplineNeedsUpdate = true) (hsort : ActionsSorted fs.data.Actions) :
    (fs.data.Actions = [] → GetPositionAtTime fs t = 0)
    ∧ (∀ a : FunscriptAction, fs.data.Actions = [a] →
        GetPositionAtTime fs t = (a.pos : Rat))
    ∧ (∀ x ∈ fs.data.Actions, x.atMs = t → GetPositionAtTime fs t = (x.pos : Rat))
    ∧ (∀ (i : Nat) (hi : i + 1 < fs.data.Actions.length),
        (fs.data.Actions.get ⟨i, by omega⟩).atMs < t →
        t < (fs.data.Actions.get ⟨i + 1, hi⟩).atMs →
        GetPositionAtTime fs t =
          interpPos (fs.data.Actions.get ⟨i, by omega⟩)
            (fs.data.Actions.get ⟨i + 1, hi⟩) t)
    ∧ (fs.data.Actions ≠ [] → (∀ a ∈ fs.data.Actions, a.atMs < t) →
        GetPositionAtTime fs t = (((fs.data.Actions.getLastD default)).pos : Rat)) := by
  refine ⟨fun he => ?_, fun a ha => ?_, fun x hx hxt => ?_, fun i hi h1 h2 => ?_,
    fun hne hall => ?_⟩
  · simp [GetPositionAtTime, he]
  · simp [GetPositionAtTime, ha]
  · rw [GetPositionAtTime_stale fs t hs (by intro he; rw [he] at hx; simp at hx)]
    exact posLin_mem fs.data.Actions hsort x hx hxt
  · rw [GetPositionAtTime_stale fs t hs (by intro he; rw [he] at hi; simp at hi)]
    exact posLin_bracket i fs.data.Actions hsort hi h1 h2
  · rw [GetPositionAtTime_stale fs t hs hne]
    exact posLin_beyond fs.data.Actions hsort hne hall

theorem C3_positionAtTime_witness :
    ActionsSorted [(⟨0, 0⟩ : FunscriptAction), ⟨1000, 100⟩] ∧
    GetPositionAtTime { data := { Actions := [⟨0, 0⟩, ⟨1000, 100⟩] } } 500 = 50 := by
  refine ⟨by decide, ?_⟩
  have h := (C3_positionAtTime { data := { Actions := [⟨0, 0⟩, ⟨1000, 100⟩] } } 500
      rfl (by decide)).2.2.2.1 0 (by decide) (by decide) (by decide)
  rw [h]
  norm_num [interpPos]

/-- C10: with at least two actions and a query time strictly before the
first action's timestamp, `GetPositionAtTime` returns the *last* action's
position (the scan never finds a bracketing pair or an exact match and
falls through to `back()`). -/
theorem C10_before_first (fs : Funscript) (t : Int) (a : FunscriptAction)
    (hs : fs.SplineNeedsUpdate = true) (hsort : ActionsSorted fs.data.Actions)
    (_hlen : 2 ≤ fs.data.Actions.length)
    (hhead : fs.data.Actions.head? = some a) (ht : t < a.atMs) :
    GetPositionAtTime fs t = (((fs.data.Actions.getLastD default)).pos : Rat) := by
  have hne : fs.data.Actions ≠ [] := by
    rintro he; rw [he] at hhead; simp at hhead
  rw [GetPositionAtTime_stale fs t hs hne]
  have hall : ∀ x ∈ fs.data.Actions, t < x.atMs := by
    rcases hacts : fs.data.Actions with _ | ⟨b, rest⟩
    · exact absurd hacts hne
    · have hba : b = a := by rw [hacts] at hhead; simpa using hhead
      subst hba
      intro x hx
      rcases List.mem_cons.1 hx with rfl | hx
      · exact ht
      · have : b.atMs < x.atMs := by
          rw [hacts] at hsort
          exact (List.pairwise_cons.1 hsort).1 x hx
        omega
  unfold posLin
  rw [scanPosition_none_of_above fs.data.Actions hall]

theorem C10_before_first_witness :
    ActionsSorted [(⟨100, 10⟩ : FunscriptAction), ⟨200, 90⟩] ∧
    GetPositionAtTime { data := { Actions := [⟨100, 10⟩, ⟨200, 90⟩] } } 50 = 90 ∧
    (90 : Rat) ≠ 10 := by
  refine ⟨by decide, ?_, by norm_num⟩
  have h := C10_before_first { data := { Actions := [⟨100, 10⟩, ⟨200, 90⟩] } } 50
    ⟨100, 10⟩ rfl (by decide) (by decide) rfl (by decide)
  simpa using h

/-- C4: on a sorted store, `GetPositionAtTime` computes the same value with
a valid spline index (`ActionMap` consistent with the actions array) as on
the stale-index linear path. -/
theorem C4_spline_equivalence (fs : Funscript) (t : Int)
    (hsort : ActionsSorted fs.data.Actions)
    (hmap : fs.ActionMap = buildActionMap fs.data.Actions)
    (hvalid : fs.SplineNeedsUpdate = false) :
    GetPositionAtTime fs t = GetPositionAtTime { fs with SplineNeedsUpdate := true } t := by
  have hstale : splineStartIndex { fs with SplineNeedsUpdate := true } t = 0 := by
    simp [splineStartIndex]
  have hscan : scanPosition (fs.data.Actions.drop (splineStartIndex fs t)) t =
      scanPosition fs.data.Actions t := by
    unfold splineStartIndex
    rw [if_neg (by simp [hvalid])]
    rcases hlb : mapLowerBound fs.ActionMap t with _ | e
    · simp
    · rw [hmap] at hlb
      obtain ⟨h0, hlen2, hbefore⟩ := mapLowerBound_buildFrom fs.data.Actions 0 e hlb
      change scanPosition
          (List.drop (if 0 < e.2 then e.2 - 1 else e.2) fs.data.Actions) t =
        scanPosition fs.data.Actions t
      rcases Nat.eq_zero_or_pos e.2 with hz | hpos
      · simp [hz]
      · rw [if_pos hpos]
        refine scanPosition_drop (e.2 - 1) fs.data.Actions hsort (by omega) ?_
        intro hi
        exact hbefore (e.2 - 1) (by omega) hi
  rcases hacts : fs.data.Actions with _ | ⟨a, _ | ⟨b, rest⟩⟩
  · simp [GetPositionAtTime, hacts]
  · simp [GetPositionAtTime, hacts]
  · rw [hacts] at hscan
    unfold GetPositionAtTime
    simp only [hacts]
    rw [hstale, List.drop_zero, hscan]

/-- C2 (code bug evaluation): removing both actions of the store while both
are selected leaves a selection entry `(100,100)` with no value-equal
member in the (now empty) actions sequence — `checkForInvalidatedActions`
erases a single element at the `remove_if` iterator instead of the whole
invalidated tail. -/
theorem C2_code_bug_eval :
    (RemoveActions
        { data := { Actions := [⟨0, 0⟩, ⟨100, 100⟩],
                    selection := [⟨0, 0⟩, ⟨100, 100⟩] } }
        [⟨0, 0⟩, ⟨100, 100⟩]).data.selection = [⟨100, 100⟩] ∧
    (RemoveActions
        { data := { Actions := [⟨0, 0⟩, ⟨100, 100⟩],
                    selection := [⟨0, 0⟩, ⟨100, 100⟩] } }
        [⟨0, 0⟩, ⟨100, 100⟩]).data.Actions = [] := by
  constructor <;> decide

/-! ## Lemmas about `getActionAtTime` -/

theorem gaatLoop_cons (t : Int) (maxErr : Nat) (a : FunscriptAction)
    (rest : List FunscriptAction) (s : Int) (best : Option FunscriptAction) :
    gaatLoop t maxErr (a :: rest) s best =
      if (toU32 t + maxErr / 2) % 4294967296 < toU32 a.atMs then best
      else if |t - a.atMs| ≤ (maxErr : Int) then
        (if |t - a.atMs| ≤ s then gaatLoop t maxErr rest |t - a.atMs| (some a) else best)
      else gaatLoop t maxErr rest s best := rfl

theorem u32_break_iff {t a : Int} {maxErr : Nat}
    (ht0 : 0 ≤ t) (ht1 : t < 2147483648)
    (ha0 : 0 ≤ a) (ha1 : a < 2147483648)
    (hm : maxErr ≤ 2147483647) :
    (toU32 t + maxErr / 2) % 4294967296 < toU32 a ↔
      t + ((maxErr / 2 : Nat) : Int) < a := by
  unfold toU32
  have h1 : t % 4294967296 = t := Int.emod_eq_of_lt ht0 (by omega)
  have h2 : a % 4294967296 = a := Int.emod_eq_of_lt ha0 (by omega)
  rw [h1, h2]
  have h3 : t.toNat + maxErr / 2 < 4294967296 := by omega
  rw [Nat.mod_eq_of_lt h3]
  omega

theorem err_mono_left {t x y : Int} (hxy : x < y) (hyt : y ≤ t) :
    |t - y| < |t - x| := by
  rw [abs_of_nonneg (by omega), abs_of_nonneg (by omega)]
  omega

theorem err_mono_right {t x y : Int} (hxy : x < y) (htx : t ≤ x) :
    |t - x| < |t - y| := by
  rw [abs_of_nonpos (by omega), abs_of_nonpos (by omega)]
  omega

theorem gaat_run (t : Int) (maxErr : Nat) (ht0 : 0 ≤ t) (ht1 : t < 2147483648)
    (hm : maxErr ≤ 2147483647) :
    ∀ (l : List FunscriptAction), ActionsSorted l →
      (∀ x ∈ l, 0 ≤ x.atMs ∧ x.atMs < 2147483648) →
      (∀ x ∈ l, t - (maxErr : Int) ≤ x.atMs) →
      ∀ b : FunscriptAction, nearWindow t maxErr b →
        (∀ x ∈ l, b.atMs < x.atMs) →
        ∃ c, gaatLoop t maxErr l |t - b.atMs| (some b) = some c ∧
          nearWindow t maxErr c ∧ (c = b ∨ c ∈ l) ∧
          |t - c.atMs| ≤ |t - b.atMs| ∧
          (∀ x ∈ l, nearWindow t maxErr x → |t - c.atMs| ≤ |t - x.atMs|) ∧
          (|t - b.atMs| = |t - c.atMs| → b.atMs ≤ c.atMs) ∧
          (∀ x ∈ l, nearWindow t maxErr x → |t - x.atMs| = |t - c.atMs| → x.atMs ≤ c.atMs)
  | [], _, _, _, b, hbw, _ =>
    ⟨b, rfl, hbw, Or.inl rfl, le_refl _, by simp, fun _ => le_refl _, by simp⟩
  | a :: rest, h, hrange, hpre, b, hbw, hblt => by
    have hrest : ActionsSorted rest := (List.pairwise_cons.1 h).2
    have hall : ∀ y ∈ rest, a.atMs < y.atMs := (List.pairwise_cons.1 h).1
    have hba : b.atMs < a.atMs := hblt a (by simp)
    obtain ⟨ha0, ha1⟩ := hrange a (by simp)
    rw [gaatLoop_cons]
    by_cases hbreak : t + ((maxErr / 2 : Nat) : Int) < a.atMs
    · -- break: nothing at or after `a` is a candidate
      rw [if_pos ((u32_break_iff ht0 ht1 ha0 ha1 hm).2 hbreak)]
      refine ⟨b, rfl, hbw, Or.inl rfl, le_refl _, ?_, fun _ => le_refl _, ?_⟩
      · intro x hx hxw
        exfalso
        rcases List.mem_cons.1 hx with rfl | hx
        · exact absurd hxw.1 (by omega)
        · have := hall x hx
          exact absurd hxw.1 (by omega)
      · intro x hx hxw
        exfalso
        rcases List.mem_cons.1 hx with rfl | hx
        · exact absurd hxw.1 (by omega)
        · have := hall x hx
          exact absurd hxw.1 (by omega)
    · -- `a` is within the window
      have hdivle : ((maxErr / 2 : Nat) : Int) ≤ (maxErr : Nat) := by
        exact_mod_cast Nat.div_le_self maxErr 2
      have herr : |t - a.atMs| ≤ (maxErr : Int) := by
        have h1 : t - (maxErr : Int) ≤ a.atMs := hpre a (by simp)
        rw [abs_le]
        omega
      have haw : nearWindow t maxErr a := ⟨by omega, herr⟩
      rw [if_neg (fun hc => hbreak ((u32_break_iff ht0 ht1 ha0 ha1 hm).1 hc)),
        if_pos herr]
      by_cases hle : |t - a.atMs| ≤ |t - b.atMs|
      · rw [if_pos hle]
        obtain ⟨c, hval, hcw, hcmem, hcerr, hcmin, hctb, hct⟩ :=
          gaat_run t maxErr ht0 ht1 hm rest hrest (fun x hx => hrange x (by simp [hx]))
            (fun x hx => hpre x (by simp [hx])) a haw hall
        refine ⟨c, hval, hcw, ?_, le_trans hcerr hle, ?_, ?_, ?_⟩
        · rcases hcmem with rfl | hc
          · exact Or.inr (by simp)
          · exact Or.inr (by simp [hc])
        · intro x hx hxw
          rcases List.mem_cons.1 hx with rfl | hx
          · exact hcerr
          · exact hcmin x hx hxw
        · intro _
          have : b.atMs < c.atMs := by
            rcases hcmem with rfl | hc
            · exact hba
            · exact lt_trans hba (hall c hc)
          omega
        · intro x hx hxw hxe
          rcases List.mem_cons.1 hx with rfl | hx
          · exact hctb hxe
          · exact hct x hx hxw hxe
      · -- worse than the running best: stop with `b`
        rw [if_neg hle]
        have hta : t < a.atMs := by
          by_contra hta
          push_neg at hta
          exact hle (le_of_lt (err_mono_left hba hta))
        have hworse : ∀ x ∈ rest, |t - a.atMs| < |t - x.atMs| := by
          intro x hx
          exact err_mono_right (hall x hx) (le_of_lt hta)
        have hbea : |t - b.atMs| < |t - a.atMs| := by omega
        refine ⟨b, rfl, hbw, Or.inl rfl, le_refl _, ?_, fun _ => le_refl _, ?_⟩
        · intro x hx hxw
          rcases List.mem_cons.1 hx with rfl | hx
          · omega
          · have := hworse x hx
            omega
        · intro x hx hxw hxe
          rcases List.mem_cons.1 hx with rfl | hx
          · omega
          · have := hworse x hx
            omega

theorem gaat_top (t : Int) (maxErr : Nat) (hbound : maxErr ≤ 2147483647)
    (ht0 : 0 ≤ t) (ht1 : t < 2147483648) :
    ∀ (l : List FunscriptAction), ActionsSorted l →
      (∀ x ∈ l, 0 ≤ x.atMs ∧ x.atMs < 2147483648) →
      ((∀ x ∈ l, ¬ nearWindow t maxErr x) ∧ gaatLoop t maxErr l int32Max none = none)
      ∨ (∃ c, gaatLoop t maxErr l int32Max none = some c ∧ c ∈ l ∧
          nearWindow t maxErr c ∧
          (∀ x ∈ l, nearWindow t maxErr x → |t - c.atMs| ≤ |t - x.atMs|) ∧
          (∀ x ∈ l, nearWindow t maxErr x → |t - x.atMs| = |t - c.atMs| → x.atMs ≤ c.atMs))
  | [], _, _ => Or.inl ⟨by simp, rfl⟩
  | a :: rest, h, hrange => by
    have hrest : ActionsSorted rest := (List.pairwise_cons.1 h).2
    have hall : ∀ y ∈ rest, a.atMs < y.atMs := (List.pairwise_cons.1 h).1
    obtain ⟨ha0, ha1⟩ := hrange a (by simp)
    rw [gaatLoop_cons]
    by_cases hbreak : t + ((maxErr / 2 : Nat) : Int) < a.atMs
    · rw [if_pos ((u32_break_iff ht0 ht1 ha0 ha1 hbound).2 hbreak)]
      left
      refine ⟨?_, rfl⟩
      intro x hx hxw
      rcases List.mem_cons.1 hx with rfl | hx
      · exact absurd hxw.1 (by omega)
      · have := hall x hx
        exact absurd hxw.1 (by omega)
    · rw [if_neg (fun hc => hbreak ((u32_break_iff ht0 ht1 ha0 ha1 hbound).1 hc))]
      by_cases herr : |t - a.atMs| ≤ (maxErr : Int)
      · -- first candidate found; from here `gaat_run` takes over
        have haw : nearWindow t maxErr a := ⟨by omega, herr⟩
        have hsmall : |t - a.atMs| ≤ int32Max := by
          have : ((maxErr : Nat) : Int) ≤ (2147483647 : Int) := by exact_mod_cast hbound
          unfold int32Max
          omega
        rw [if_pos herr, if_pos hsmall]
        have hpre : ∀ x ∈ rest, t - (maxErr : Int) ≤ x.atMs := by
          intro x hx
          have h1 := hall x hx
          have h2 : t - (maxErr : Int) ≤ a.atMs := by
            have := abs_le.1 herr
            omega
          omega
        obtain ⟨c, hval, hcw, hcmem, hcerr, hcmin, hctb, hct⟩ :=
          gaat_run t maxErr ht0 ht1 hbound rest hrest
            (fun x hx => hrange x (by simp [hx])) hpre a haw hall
        right
        refine ⟨c, hval, ?_, hcw, ?_, ?_⟩
        · rcases hcmem with rfl | hc
          · simp
          · simp [hc]
        · intro x hx hxw
          rcases List.mem_cons.1 hx with rfl | hx
          · exact hcerr
          · exact hcmin x hx hxw
        · intro x hx hxw hxe
          rcases List.mem_cons.1 hx with rfl | hx
          · exact hctb hxe
          · exact hct x hx hxw hxe
      · -- `a` is not a candidate (error too large): skip it
        have hnaw : ¬ nearWindow t maxErr a := fun hw => herr hw.2
        rw [if_neg herr]
        rcases gaat_top t maxErr hbound ht0 ht1 rest hrest
            (fun x hx => hrange x (by simp [hx])) with
          ⟨hnone, hval⟩ | ⟨c, hval, hc, hcw, hcmin, hct⟩
        · left
          refine ⟨?_, hval⟩
          intro x hx
          rcases List.mem_cons.1 hx with rfl | hx
          · exact hnaw
          · exact hnone x hx
        · right
          refine ⟨c, hval, by simp [hc], hcw, ?_, ?_⟩
          · intro x hx hxw
            rcases List.mem_cons.1 hx with rfl | hx
            · exact absurd hxw hnaw
            · exact hcmin x hx hxw
          · intro x hx hxw hxe
            rcases List.mem_cons.1 hx with rfl | hx
            · exact absurd hxw hnaw
            · exact hct x hx hxw hxe

theorem C4_spline_equivalence_witness :
    ActionsSorted [(⟨0, 0⟩ : FunscriptAction), ⟨10, 50⟩, ⟨20, 10⟩] ∧
    GetPositionAtTime
        { data := { Actions := [⟨0, 0⟩, ⟨10, 50⟩, ⟨20, 10⟩] },
          SplineNeedsUpdate := false,
          ActionMap := buildActionMap [⟨0, 0⟩, ⟨10, 50⟩, ⟨20, 10⟩] } 15 =
      GetPositionAtTime
        { data := { Actions := [⟨0, 0⟩, ⟨10, 50⟩, ⟨20, 10⟩] },
          SplineNeedsUpdate := true,
          ActionMap := buildActionMap [⟨0, 0⟩, ⟨10, 50⟩, ⟨20, 10⟩] } 15 :=
  ⟨by decide,
    C4_spline_equivalence
      { data := { Actions := [⟨0, 0⟩, ⟨10, 50⟩, ⟨20, 10⟩] },
        SplineNeedsUpdate := false,
        ActionMap := buildActionMap [⟨0, 0⟩, ⟨10, 50⟩, ⟨20, 10⟩] } 15
      (by decide) rfl rfl⟩

/-- C6 (counterexample): the claim fails twice on the code.  First, the
action `(6,50)` has error `|0 - 6| = 6 ≤ 10 = maxErr`, yet
`getActionAtTime [(6,50)] 0 10` returns `none`, because the scan breaks at
the first action past `t + maxErr/2 = 5`.  Second, for the equidistant
pair `(4,10)`, `(6,20)` around `t = 5`, the code returns the *last* one
`(6,20)`, not the first-scanned `(4,10)`: the update condition is
`error <= smallestError`, so an equal error replaces the held action. -/
theorem C6_counterexample :
    getActionAtTime [⟨6, 50⟩] 0 10 = none ∧ |(0 : Int) - 6| ≤ 10 ∧
    getActionAtTime [⟨4, 10⟩, ⟨6, 20⟩] 5 10 = some ⟨6, 20⟩ ∧
    |(5 : Int) - 4| = |(5 : Int) - 6| := by
  refine ⟨by decide, by decide, by decide, by decide⟩

/-- C6 (amended): for a sorted store on the spec's domain — timestamps and
the query time nonnegative and within `int32`, tolerance within
`INT32_MAX` (outside it the source's `int32`/`uint32` mixing wraps the
scan bound) — `getActionAtTime` returns the action minimizing `|t - at|`
among the actions with `at ≤ t + maxErrorMs/2` (integer halving) and
`|t - at| ≤ maxErrorMs`, with ties between equidistant candidates broken
in favor of the *last* one encountered in ascending scan order, and
returns null exactly when no such candidate exists. -/
theorem C6_amended_nearest (l : List FunscriptAction) (t : Int) (maxErr : Nat)
    (hsort : ActionsSorted l) (hbound : maxErr ≤ 2147483647)
    (ht0 : 0 ≤ t) (ht1 : t < 2147483648)
    (hrange : ∀ x ∈ l, 0 ≤ x.atMs ∧ x.atMs < 2147483648) :
    (getActionAtTime l t maxErr = none ↔ ∀ x ∈ l, ¬ nearWindow t maxErr x)
    ∧ (∀ c, getActionAtTime l t maxErr = some c →
        c ∈ l ∧ nearWindow t maxErr c ∧
        (∀ x ∈ l, nearWindow t maxErr x → |t - c.atMs| ≤ |t - x.atMs|) ∧
        (∀ x ∈ l, nearWindow t maxErr x → |t - x.atMs| = |t - c.atMs| →
          x.atMs ≤ c.atMs)) := by
  rcases gaat_top t maxErr hbound ht0 ht1 l hsort hrange with
    ⟨hnone, hval⟩ | ⟨c, hval, hc, hcw, hcmin, hct⟩
  · constructor
    · exact ⟨fun _ => hnone, fun _ => hval⟩
    · intro c hcv
      rw [getActionAtTime] at hcv
      rw [hval] at hcv
      cases hcv
  · constructor
    · constructor
      · intro hn
        rw [getActionAtTime] at hn
        rw [hval] at hn
        cases hn
      · intro hnone
        exact absurd hcw (hnone c hc)
    · intro c2 hc2
      rw [getActionAtTime] at hc2
      rw [hval] at hc2
      cases hc2
      exact ⟨hc, hcw, hcmin, hct⟩

theorem C6_amended_nearest_witness :
    ActionsSorted [(⟨4, 10⟩ : FunscriptAction), ⟨6, 20⟩] ∧ (10 : Nat) ≤ 2147483647 ∧
    ((⟨6, 20⟩ : FunscriptAction) ∈ [(⟨4, 10⟩ : FunscriptAction), ⟨6, 20⟩] ∧
      nearWindow 5 10 ⟨6, 20⟩ ∧
      (∀ x ∈ [(⟨4, 10⟩ : FunscriptAction), ⟨6, 20⟩], nearWindow 5 10 x →
        |(5 : Int) - (⟨6, 20⟩ : FunscriptAction).atMs| ≤ |(5 : Int) - x.atMs|) ∧
      (∀ x ∈ [(⟨4, 10⟩ : FunscriptAction), ⟨6, 20⟩], nearWindow 5 10 x →
        |(5 : Int) - x.atMs| = |(5 : Int) - (⟨6, 20⟩ : FunscriptAction).atMs| →
        x.atMs ≤ (⟨6, 20⟩ : FunscriptAction).atMs)) :=
  ⟨by decide, by norm_num,
    (C6_amended_nearest [⟨4, 10⟩, ⟨6, 20⟩] 5 10 (by decide) (by norm_num)
        (by norm_num) (by norm_num) (by decide)).2
      ⟨6, 20⟩ (by decide)⟩

/-! ## Lemmas about `SelectTime` -/

theorem ToggleSelection_selection (fs : Funscript) (a : FunscriptAction) :
    ((ToggleSelection fs a).1).data.selection =
      if a ∈ fs.data.selection then fs.data.selection.erase a
      else fs.data.selection ++ [a] := by
  unfold ToggleSelection NotifySelectionChanged
  by_cases hm : a ∈ fs.data.selection
  · rw [if_pos hm]
    simp only [List.elem_iff.2 hm]
    rfl
  · rw [if_neg hm]
    have : fs.data.selection.contains a = false := by
      rw [← Bool.not_eq_true, List.elem_iff]
      exact hm
    simp only [this]
    rfl

theorem ToggleSelection_Actions (fs : Funscript) (a : FunscriptAction) :
    ((ToggleSelection fs a).1).data.Actions = fs.data.Actions := by
  simp only [ToggleSelection, NotifySelectionChanged]
  split <;> rfl

theorem toggle_mem (fs : Funscript) (a : FunscriptAction)
    (hnd : fs.data.selection.Nodup) (x : FunscriptAction) :
    x ∈ ((ToggleSelection fs a).1).data.selection ↔
      (x ∈ fs.data.selection ∧ x ≠ a) ∨ (x = a ∧ a ∉ fs.data.selection) := by
  rw [ToggleSelection_selection]
  by_cases hm : a ∈ fs.data.selection
  · rw [if_pos hm, hnd.mem_erase_iff]
    constructor
    · rintro ⟨h1, h2⟩; exact Or.inl ⟨h2, h1⟩
    · rintro (⟨h1, h2⟩ | ⟨rfl, h2⟩)
      · exact ⟨h2, h1⟩
      · exact absurd hm h2
  · rw [if_neg hm]
    simp only [List.mem_append, List.mem_singleton]
    constructor
    · rintro (h1 | rfl)
      · exact Or.inl ⟨h1, by rintro rfl; exact hm h1⟩
      · exact Or.inr ⟨rfl, hm⟩
    · rintro (⟨h1, _⟩ | ⟨rfl, _⟩)
      · exact Or.inl h1
      · exact Or.inr rfl

theorem toggle_nodup (fs : Funscript) (a : FunscriptAction)
    (hnd : fs.data.selection.Nodup) :
    ((ToggleSelection fs a).1).data.selection.Nodup := by
  rw [ToggleSelection_selection]
  by_cases hm : a ∈ fs.data.selection
  · rw [if_pos hm]; exact hnd.erase a
  · rw [if_neg hm]
    refine hnd.append (List.nodup_singleton a) ?_
    intro x hxl hxr
    rw [List.mem_singleton] at hxr
    subst hxr
    exact hm hxl

theorem selectTimeLoop_Actions (fromMs toMs : Int) :
    ∀ (l : List FunscriptAction) (fs : Funscript),
      (selectTimeLoop fromMs toMs fs l).data.Actions = fs.data.Actions
  | [], _ => rfl
  | a :: rest, fs => by
    unfold selectTimeLoop
    split
    · rw [selectTimeLoop_Actions fromMs toMs rest _, ToggleSelection_Actions]
    · split
      · rfl
      · exact selectTimeLoop_Actions fromMs toMs rest fs

theorem selectTimeLoop_nodup (fromMs toMs : Int) :
    ∀ (l : List FunscriptAction) (fs : Funscript), fs.data.selection.Nodup →
      (selectTimeLoop fromMs toMs fs l).data.selection.Nodup
  | [], _, h => h
  | a :: rest, fs, h => by
    unfold selectTimeLoop
    split
    · exact selectTimeLoop_nodup fromMs toMs rest _ (toggle_nodup fs a h)
    · split
      · exact h
      · exact selectTimeLoop_nodup fromMs toMs rest fs h

theorem selectTimeLoop_mem (fromMs toMs : Int) :
    ∀ (l : List FunscriptAction), ActionsSorted l →
      ∀ (fs : Funscript), fs.data.selection.Nodup →
        ∀ x : FunscriptAction,
          x ∈ (selectTimeLoop fromMs toMs fs l).data.selection ↔
            ((x ∈ fs.data.selection ∧ ¬(x ∈ l ∧ fromMs ≤ x.atMs ∧ x.atMs ≤ toMs))
             ∨ (x ∉ fs.data.selection ∧ (x ∈ l ∧ fromMs ≤ x.atMs ∧ x.atMs ≤ toMs)))
  | [], _, fs, _, x => by simp [selectTimeLoop]
  | a :: rest, h, fs, hnd, x => by
    have hrest : ActionsSorted rest := (List.pairwise_cons.1 h).2
    have hall : ∀ y ∈ rest, a.atMs < y.atMs := (List.pairwise_cons.1 h).1
    have hanr : a ∉ rest := fun hmem => absurd (hall a hmem) (by omega)
    unfold selectTimeLoop
    by_cases hin : fromMs ≤ a.atMs ∧ a.atMs ≤ toMs
    · rw [if_pos hin]
      rw [selectTimeLoop_mem fromMs toMs rest hrest _ (toggle_nodup fs a hnd) x]
      rw [toggle_mem fs a hnd x]
      by_cases hxa : x = a
      · subst hxa
        constructor
        · rintro (⟨htog, -⟩ | ⟨-, hrestm⟩)
          · rcases htog with ⟨-, hne⟩ | ⟨-, hnotin⟩
            · exact absurd rfl hne
            · exact Or.inr ⟨hnotin, List.mem_cons_self x rest, hin.1, hin.2⟩
          · exact absurd hrestm.1 hanr
        · rintro (⟨hmem, hno⟩ | ⟨hnotin, -⟩)
          · exact absurd ⟨List.mem_cons_self x rest, hin.1, hin.2⟩ hno
          · exact Or.inl ⟨Or.inr ⟨rfl, hnotin⟩, fun hc => hanr hc.1⟩
      · have hxcons : (x ∈ a :: rest ∧ fromMs ≤ x.atMs ∧ x.atMs ≤ toMs) ↔
            (x ∈ rest ∧ fromMs ≤ x.atMs ∧ x.atMs ≤ toMs) := by
          constructor
          · rintro ⟨hm, hr⟩
            rcases List.mem_cons.1 hm with rfl | hm
            · exact absurd rfl hxa
            · exact ⟨hm, hr⟩
          · rintro ⟨hm, hr⟩
            exact ⟨by simp [hm], hr⟩
        rw [hxcons]
        have hmemtog : ((x ∈ fs.data.selection ∧ x ≠ a) ∨ (x = a ∧ a ∉ fs.data.selection)) ↔
            x ∈ fs.data.selection := by
          constructor
          · rintro (⟨h1, -⟩ | ⟨rfl, -⟩)
            · exact h1
            · exact absurd rfl hxa
          · intro h1
            exact Or.inl ⟨h1, hxa⟩
        rw [hmemtog]
    · rw [if_neg hin]
      by_cases hbr : toMs < a.atMs
      · rw [if_pos hbr]
        have hnone : ¬(x ∈ a :: rest ∧ fromMs ≤ x.atMs ∧ x.atMs ≤ toMs) := by
          rintro ⟨hm, h1, h2⟩
          rcases List.mem_cons.1 hm with rfl | hm
          · omega
          · have := hall x hm
            omega
        constructor
        · intro h1
          exact Or.inl ⟨h1, hnone⟩
        · rintro (⟨h1, -⟩ | ⟨-, hc⟩)
          · exact h1
          · exact absurd hc hnone
      · rw [if_neg hbr]
        rw [selectTimeLoop_mem fromMs toMs rest hrest fs hnd x]
        have hxcons : (x ∈ a :: rest ∧ fromMs ≤ x.atMs ∧ x.atMs ≤ toMs) ↔
            (x ∈ rest ∧ fromMs ≤ x.atMs ∧ x.atMs ≤ toMs) := by
          constructor
          · rintro ⟨hm, hr⟩
            rcases List.mem_cons.1 hm with rfl | hm
            · exact absurd hr hin
            · exact ⟨hm, hr⟩
          · rintro ⟨hm, hr⟩
            exact ⟨by simp [hm], hr⟩
        rw [hxcons]

theorem selectTimeLoop_append (fromMs toMs : Int) :
    ∀ (l : List FunscriptAction), ActionsSorted l →
      ∀ (fs : Funscript), (∀ x ∈ l, x ∉ fs.data.selection) →
        (selectTimeLoop fromMs toMs fs l).data.selection =
          fs.data.selection ++
            l.filter (fun a => decide (fromMs ≤ a.atMs) && decide (a.atMs ≤ toMs))
  | [], _, fs, _ => by simp [selectTimeLoop]
  | a :: rest, h, fs, hdisj => by
    have hrest : ActionsSorted rest := (List.pairwise_cons.1 h).2
    have hall : ∀ y ∈ rest, a.atMs < y.atMs := (List.pairwise_cons.1 h).1
    unfold selectTimeLoop
    by_cases hin : fromMs ≤ a.atMs ∧ a.atMs ≤ toMs
    · rw [if_pos hin]
      have hna : a ∉ fs.data.selection := hdisj a (by simp)
      have hsel : ((ToggleSelection fs a).1).data.selection =
          fs.data.selection ++ [a] := by
        rw [ToggleSelection_selection, if_neg hna]
      have hdisj2 : ∀ x ∈ rest, x ∉ ((ToggleSelection fs a).1).data.selection := by
        intro x hx
        rw [hsel]
        simp only [List.mem_append, List.mem_singleton]
        rintro (hmem | rfl)
        · exact hdisj x (by simp [hx]) hmem
        · exact absurd (hall x hx) (by omega)
      rw [selectTimeLoop_append fromMs toMs rest hrest _ hdisj2, hsel]
      rw [List.filter_cons_of_pos (by simp [hin.1, hin.2])]
      simp
    · rw [if_neg hin]
      by_cases hbr : toMs < a.atMs
      · rw [if_pos hbr]
        have hnil : (a :: rest).filter
            (fun a => decide (fromMs ≤ a.atMs) && decide (a.atMs ≤ toMs)) = [] := by
          rw [List.filter_eq_nil_iff]
          intro x hx
          rcases List.mem_cons.1 hx with rfl | hx
          · simp only [Bool.and_eq_true, decide_eq_true_eq]
            omega
          · have := hall x hx
            simp only [Bool.and_eq_true, decide_eq_true_eq]
            omega
        rw [hnil]
        simp
      · rw [if_neg hbr]
        rw [selectTimeLoop_append fromMs toMs rest hrest fs
          (fun x hx => hdisj x (by simp [hx]))]
        rw [List.filter_cons_of_neg (by simp only [Bool.and_eq_true, decide_eq_true_eq]; omega)]

theorem SelectTime_selection_true (fs : Funscript) (fromMs toMs : Int)
    (hsort : ActionsSorted fs.data.Actions) :
    (SelectTime fs fromMs toMs true).data.selection =
      fs.data.Actions.filter
        (fun a => decide (fromMs ≤ a.atMs) && decide (a.atMs ≤ toMs)) := by
  have h1 : (SelectTime fs fromMs toMs true).data.selection =
      (selectTimeLoop fromMs toMs (ClearSelection fs) fs.data.Actions).data.selection := rfl
  rw [h1]
  rw [selectTimeLoop_append fromMs toMs fs.data.Actions hsort (ClearSelection fs)
    (by intro x hx; simp [ClearSelection])]
  simp [ClearSelection]

theorem SelectTime_selection_false (fs : Funscript) (fromMs toMs : Int) :
    (SelectTime fs fromMs toMs false).data.selection =
      ((selectTimeLoop fromMs toMs fs fs.data.Actions).data.selection).insertionSort
        (fun x y => x.atMs ≤ y.atMs) := rfl

/-- C7 (counterexample): with action `(5,50)` already selected and lying in
`[0,10]`, `SelectTime 0 10 false` leaves it *deselected* (the loop toggles
in-range actions), while the claim says a previously selected in-range
action must still be selected after the merge. -/
theorem C7_counterexample :
    ((⟨5, 50⟩ : FunscriptAction) ∈
      ({ data := { Actions := [⟨5, 50⟩], selection := [⟨5, 50⟩] } } :
        Funscript).data.selection)
    ∧ (0 : Int) ≤ 5 ∧ (5 : Int) ≤ 10
    ∧ (SelectTime { data := { Actions := [⟨5, 50⟩], selection := [⟨5, 50⟩] } }
        0 10 false).data.selection = [] := by
  refine ⟨by decide, by decide, by decide, by decide⟩

/-- C7 (amended): `SelectTime(from, to, clear)` — with `clear` true the
resulting selection is exactly the actions in the inclusive interval
`[from, to]`; with `clear` false every action in the interval is
*toggled* (previously selected in-range actions become deselected,
unselected in-range actions become selected, out-of-range selected
actions stay), and the result is re-sorted by timestamp. -/
theorem C7_amended_selectTime (fs : Funscript) (fromMs toMs : Int) (clear : Bool)
    (hsort : ActionsSorted fs.data.Actions) (hnd : fs.data.selection.Nodup) :
    (clear = true → (SelectTime fs fromMs toMs clear).data.selection =
        fs.data.Actions.filter
          (fun a => decide (fromMs ≤ a.atMs) && decide (a.atMs ≤ toMs)))
    ∧ (clear = false → ∀ x : FunscriptAction,
        x ∈ (SelectTime fs fromMs toMs clear).data.selection ↔
          ((x ∈ fs.data.selection ∧
              ¬(x ∈ fs.data.Actions ∧ fromMs ≤ x.atMs ∧ x.atMs ≤ toMs))
           ∨ (x ∉ fs.data.selection ∧
              (x ∈ fs.data.Actions ∧ fromMs ≤ x.atMs ∧ x.atMs ≤ toMs))))
    ∧ (clear = false →
        ((SelectTime fs fromMs toMs clear).data.selection).Sorted
          (fun x y => x.atMs ≤ y.atMs)) := by
  refine ⟨fun hcl => ?_, fun hcl => ?_, fun hcl => ?_⟩
  · subst hcl
    exact SelectTime_selection_true fs fromMs toMs hsort
  · subst hcl
    intro x
    rw [SelectTime_selection_false]
    rw [(List.perm_insertionSort (fun x y : FunscriptAction => x.atMs ≤ y.atMs) _).mem_iff]
    exact selectTimeLoop_mem fromMs toMs fs.data.Actions hsort fs hnd x
  · subst hcl
    rw [SelectTime_selection_false]
    exact List.sorted_insertionSort (fun x y : FunscriptAction => x.atMs ≤ y.atMs) _

theorem C7_amended_selectTime_witness :
    ActionsSorted [(⟨1, 10⟩ : FunscriptAction), ⟨5, 50⟩, ⟨9, 90⟩] ∧
    ([(⟨5, 50⟩ : FunscriptAction)]).Nodup ∧
    (SelectTime
        { data := { Actions := [⟨1, 10⟩, ⟨5, 50⟩, ⟨9, 90⟩], selection := [⟨5, 50⟩] } }
        0 10 true).data.selection = [⟨1, 10⟩, ⟨5, 50⟩, ⟨9, 90⟩] :=
  ⟨by decide, by decide, by
    have h := (C7_amended_selectTime
      { data := { Actions := [⟨1, 10⟩, ⟨5, 50⟩, ⟨9, 90⟩], selection := [⟨5, 50⟩] } }
      0 10 true (by decide) (by decide)).1 rfl
    rw [h]
    decide⟩

/-! ## Lemmas about `EqualizeSelection` -/

theorem ActionsSorted.nodup {l : List FunscriptAction} (h : ActionsSorted l) :
    l.Nodup := by
  refine h.imp ?_
  intro a b hlt
  intro hab
  rw [hab] at hlt
  omega

theorem AddActionSafe_selection (fs : Funscript) (a : FunscriptAction) :
    (AddActionSafe fs a).data.selection = fs.data.selection := by
  unfold AddActionSafe NotifyActionsChanged
  split <;> rfl

theorem removeFold_Actions :
    ∀ (rl : List FunscriptAction) (fs : Funscript),
      ((rl.foldl (fun s a => RemoveAction s a false) fs)).data.Actions =
        rl.foldl (fun l a => l.erase a) fs.data.Actions
  | [], _ => rfl
  | a :: rl, fs => by
    rw [List.foldl_cons, List.foldl_cons,
      removeFold_Actions rl (RemoveAction fs a false), RemoveAction_Actions]

theorem RemoveActions_Actions (fs : Funscript) (rl : List FunscriptAction) :
    (RemoveActions fs rl).data.Actions = fs.data.Actions.diff rl := by
  unfold RemoveActions
  rw [checkForInvalidatedActions_Actions]
  show ((rl.foldl (fun s a => RemoveAction s a false) fs)).data.Actions = _
  rw [removeFold_Actions, List.diff_eq_foldl]

theorem RemoveSelectedActions_Actions (fs : Funscript) :
    (RemoveSelectedActions fs).data.Actions =
      fs.data.Actions.diff fs.data.selection := by
  unfold RemoveSelectedActions NotifySelectionChanged ClearSelection
  exact RemoveActions_Actions fs fs.data.selection

theorem RemoveSelectedActions_selection (fs : Funscript) :
    (RemoveSelectedActions fs).data.selection = [] := rfl

theorem addFold_Actions :
    ∀ (rl : List FunscriptAction) (fs : Funscript),
      ActionsSorted fs.data.Actions →
      (∀ r ∈ rl, ∀ b ∈ fs.data.Actions, r.atMs ≠ b.atMs) →
      rl.Pairwise (fun x y => x.atMs ≠ y.atMs) →
      ActionsSorted ((rl.foldl (fun s a => AddAction s a) fs).data.Actions)
      ∧ (∀ r ∈ rl, r ∈ (rl.foldl (fun s a => AddAction s a) fs).data.Actions)
      ∧ (∀ b ∈ fs.data.Actions,
          b ∈ (rl.foldl (fun s a => AddAction s a) fs).data.Actions)
  | [], fs, hsort, _, _ => ⟨hsort, by simp, fun b hb => hb⟩
  | r :: rl, fs, hsort, hfresh, hpw => by
    have hnd : ∀ b ∈ fs.data.Actions, b.atMs ≠ r.atMs :=
      fun b hb => (hfresh r (by simp) b hb).symm
    have hActs : (AddAction fs r).data.Actions = insSafe r fs.data.Actions :=
      AddActionSafe_Actions fs r hsort
    have hperm : List.Perm ((AddAction fs r).data.Actions) (r :: fs.data.Actions) := by
      rw [hActs]; exact insSafe_perm hnd
    have hsort1 : ActionsSorted ((AddAction fs r).data.Actions) := by
      rw [hActs]; exact insSafe_sorted hsort
    have hfresh1 : ∀ x ∈ rl, ∀ b ∈ (AddAction fs r).data.Actions, x.atMs ≠ b.atMs := by
      intro x hx b hb
      rcases List.mem_cons.1 (hperm.mem_iff.1 hb) with rfl | hbA
      · exact ((List.pairwise_cons.1 hpw).1 x hx).symm
      · exact hfresh x (by simp [hx]) b hbA
    obtain ⟨hs2, hmem2, hpres2⟩ :=
      addFold_Actions rl (AddAction fs r) hsort1 hfresh1 (List.pairwise_cons.1 hpw).2
    rw [List.foldl_cons]
    refine ⟨hs2, ?_, ?_⟩
    · intro x hx
      rcases List.mem_cons.1 hx with rfl | hx
      · exact hpres2 x (hperm.mem_iff.2 (by simp))
      · exact hmem2 x hx
    · intro b hb
      exact hpres2 b (hperm.mem_iff.2 (by simp [hb]))

theorem sortSelection_eq_self (fs : Funscript)
    (hsortS : ActionsSorted fs.data.selection) : sortSelection fs = fs := by
  have hweak : fs.data.selection.Sorted (fun x y : FunscriptAction => x.atMs ≤ y.atMs) :=
    hsortS.imp (fun h => le_of_lt h)
  unfold sortSelection
  rw [hweak.insertionSort_eq]

theorem equalized_eq_rewritten (sel : List FunscriptAction) :
    sel.enum.map (fun p : Nat × FunscriptAction =>
      if 1 ≤ p.1 ∧ p.1 < sel.length - 1 then
        { p.2 with atMs := (sel.headD default).atMs +
            roundHalfAway ((p.1 : Rat) *
              ((((sel.getLastD default).atMs - (sel.headD default).atMs : Int) : Rat) /
                ((sel.length - 1 : Nat) : Rat))) }
      else p.2) = equalizedTimestamps sel := by
  unfold equalizedTimestamps
  congr 1
  funext p
  by_cases hp : 1 ≤ p.1 ∧ p.1 < sel.length - 1
  · rw [if_pos hp, if_pos hp, mul_div_assoc]
  · rw [if_neg hp, if_neg hp]

theorem EqualizeSelection_selection_eq (fs : Funscript)
    (hlen : ¬ fs.data.selection.length < 3) (hself : sortSelection fs = fs) :
    (EqualizeSelection fs).data.selection = equalizedTimestamps fs.data.selection := by
  unfold EqualizeSelection
  rw [if_neg hlen, hself]
  simp only [equalized_eq_rewritten]

theorem EqualizeSelection_Actions_eq (fs : Funscript)
    (hlen : ¬ fs.data.selection.length < 3) (hself : sortSelection fs = fs) :
    (EqualizeSelection fs).data.Actions =
      ((equalizedTimestamps fs.data.selection).foldl (fun s a => AddAction s a)
        (RemoveSelectedActions fs)).data.Actions := by
  unfold EqualizeSelection
  rw [if_neg hlen, hself]
  simp only [equalized_eq_rewritten]

/-- C8 (counterexample): the claim fails on the code when an equalized
interior timestamp collides with an unselected store action.  Selection
timestamps `[0, 100, 1000]` equalize the interior entry to `500`
(`step = 1000/2`), but the unselected `(500, 77)` already occupies that
timestamp: the duplicate-rejecting `AddAction` refuses the rewritten
`(500, 20)`, so it is *not* reinserted into the store — yet it is kept in
the new selection, contradicting "reinserting the rewritten actions into
the store and keeping them selected". -/
theorem C8_counterexample :
    ActionsSorted exampleCollideFs.data.Actions
    ∧ ActionsSorted exampleCollideFs.data.selection
    ∧ 3 ≤ exampleCollideFs.data.selection.length
    ∧ (∀ s ∈ exampleCollideFs.data.selection, s ∈ exampleCollideFs.data.Actions)
    ∧ ((⟨500, 20⟩ : FunscriptAction) ∈ (EqualizeSelection exampleCollideFs).data.selection)
    ∧ ((⟨500, 20⟩ : FunscriptAction) ∉ (EqualizeSelection exampleCollideFs).data.Actions) := by
  have hself : sortSelection exampleCollideFs = exampleCollideFs :=
    sortSelection_eq_self _ (by decide)
  have hcomp : equalizedTimestamps exampleCollideFs.data.selection =
      [⟨0, 10⟩, ⟨500, 20⟩, ⟨1000, 40⟩] := by
    rw [show exampleCollideFs.data.selection = [⟨0, 10⟩, ⟨100, 20⟩, ⟨1000, 40⟩] from rfl]
    simp only [equalizedTimestamps, List.enum, List.enumFrom, List.map, roundHalfAway,
      List.headD, List.getLastD, List.length]
    norm_num
  refine ⟨by decide, by decide, by decide, by decide, ?_, ?_⟩
  · rw [EqualizeSelection_selection_eq exampleCollideFs (by decide) hself, hcomp]
    decide
  · rw [EqualizeSelection_Actions_eq exampleCollideFs (by decide) hself, hcomp]
    decide

/-- C8 (amended): with at least three selected actions (selection sorted
by timestamp) on a sorted store, `EqualizeSelection` always makes the new
selection exactly the rewritten list — first and last timestamps kept,
each interior timestamp `i` moved to
`first.at + round(i * (last.at - first.at)/(count-1))` (see
`equalizedTimestamps`) — and, *provided* the rewritten timestamps are
pairwise distinct and collide with no remaining non-selected action's
timestamp, every rewritten action is re-inserted into the store; a
colliding rewritten action is silently dropped by the duplicate-rejecting
insert (see `C8_counterexample`). -/
theorem C8_equalize (fs : Funscript)
    (hsortA : ActionsSorted fs.data.Actions)
    (hsortS : ActionsSorted fs.data.selection)
    (hlen : 3 ≤ fs.data.selection.length) :
    (EqualizeSelection fs).data.selection = equalizedTimestamps fs.data.selection
    ∧ (equalizedTimestamps fs.data.selection).length = fs.data.selection.length
    ∧ ((∀ r ∈ equalizedTimestamps fs.data.selection,
          ∀ b ∈ fs.data.Actions, b ∉ fs.data.selection → r.atMs ≠ b.atMs) →
       (equalizedTimestamps fs.data.selection).Pairwise
          (fun x y => x.atMs ≠ y.atMs) →
       ∀ r ∈ equalizedTimestamps fs.data.selection,
          r ∈ (EqualizeSelection fs).data.Actions) := by
  have hself := sortSelection_eq_self fs hsortS
  have hsel := EqualizeSelection_selection_eq fs (by omega) hself
  refine ⟨hsel, by simp [equalizedTimestamps], fun hfresh hpw r hr => ?_⟩
  have hsort1 : ActionsSorted ((RemoveSelectedActions fs).data.Actions) := by
    rw [RemoveSelectedActions_Actions]
    exact hsortA.sublist (List.diff_sublist _ _)
  have hfresh1 : ∀ r ∈ equalizedTimestamps fs.data.selection,
      ∀ b ∈ (RemoveSelectedActions fs).data.Actions, r.atMs ≠ b.atMs := by
    intro r2 hr2 b hb
    rw [RemoveSelectedActions_Actions] at hb
    obtain ⟨hbA, hbS⟩ := (hsortA.nodup.mem_diff_iff).1 hb
    exact hfresh r2 hr2 b hbA hbS
  obtain ⟨-, hmem, -⟩ := addFold_Actions (equalizedTimestamps fs.data.selection)
    (RemoveSelectedActions fs) hsort1 hfresh1 hpw
  rw [EqualizeSelection_Actions_eq fs (by omega) hself]
  exact hmem r hr

theorem C8_equalize_witness :
    ActionsSorted exampleEqualizeFs.data.Actions ∧
    ActionsSorted exampleEqualizeFs.data.selection ∧
    (EqualizeSelection exampleEqualizeFs).data.selection.map (fun a => a.atMs) =
      [0, 333, 667, 1000] ∧
    (⟨333, 20⟩ : FunscriptAction) ∈ (EqualizeSelection exampleEqualizeFs).data.Actions := by
  have hsel : exampleEqualizeFs.data.selection =
      [⟨0, 10⟩, ⟨100, 20⟩, ⟨300, 30⟩, ⟨1000, 40⟩] := rfl
  have hcomp : equalizedTimestamps exampleEqualizeFs.data.selection =
      [⟨0, 10⟩, ⟨333, 20⟩, ⟨667, 30⟩, ⟨1000, 40⟩] := by
    rw [hsel]
    simp only [equalizedTimestamps, List.enum, List.enumFrom, List.map, roundHalfAway,
      List.headD, List.getLastD, List.length]
    norm_num
  obtain ⟨h1, -, h3⟩ :=
    C8_equalize exampleEqualizeFs (by decide) (by decide) (by decide)
  refine ⟨by decide, by decide, ?_, ?_⟩
  · rw [h1, hcomp]
    decide
  · exact h3 (by rw [hcomp]; decide) (by rw [hcomp]; decide) ⟨333, 20⟩
      (by rw [hcomp]; decide)

end OFS
